import Mathlib

/-!
Verification of the `filestore` facade: a shallow embedding of the pure path
and filter functions (`fs.go`, `path.go`) together with a symbolic model of
the POSIX storage layer that `DiskFS` (`disk.go`) drives through `os.Stat`,
`os.ReadDir`, `os.MkdirAll` and `os.Rename`.  The file system is modelled as
a finite map from absolute, normalized paths (lists of segments) to entries
(regular files with string content, or directories); `..` resolution is
lexical over that tree and there are no symbolic links.  Strings are treated
at rune (Char) granularity.
-/

set_option autoImplicit false
set_option maxHeartbeats 1000000
set_option linter.unusedVariables false

instance {ε α : Type} [DecidableEq ε] [DecidableEq α] : DecidableEq (Except ε α) :=
  fun a b =>
    match a, b with
    | .ok x, .ok y =>
      if h : x = y then .isTrue (congrArg Except.ok h)
      else .isFalse (fun hh => h (Except.ok.inj hh))
    | .error x, .error y =>
      if h : x = y then .isTrue (congrArg Except.error h)
      else .isFalse (fun hh => h (Except.error.inj hh))
    | .ok _, .error _ => .isFalse (fun hh => Except.noConfusion hh)
    | .error _, .ok _ => .isFalse (fun hh => Except.noConfusion hh)

/-! ## String helpers (ports of `strings.HasPrefix` / `HasSuffix` / `ToLower` /
`TrimPrefix` / `TrimSuffix` at Char granularity) -/

def hasPrefixStr (s pre : String) : Bool := pre.data.isPrefixOf s.data

def hasSuffixStr (s suf : String) : Bool := suf.data.isSuffixOf s.data

def goToLower (s : String) : String := ⟨s.data.map Char.toLower⟩

def trimPrefixDot (s : String) : String :=
  if hasPrefixStr s "." then ⟨s.data.drop 1⟩ else s

def trimSuffixStr (s suf : String) : String :=
  if hasSuffixStr s suf then ⟨s.data.take (s.data.length - suf.data.length)⟩ else s

/-! ## `path.Clean`, `path.Join`, `path.Dir`, `path.Ext`

Go's `path.Clean` processes slash-separated segments left to right keeping a
stack: empty and `.` segments are dropped, `..` pops a segment when one is
available (or is kept at the front of a relative path, or dropped at the root
of a rooted one). -/

def splitSegsAux : List Char → List Char → List String
  | [], acc => [⟨acc.reverse⟩]
  | c :: cs, acc =>
    if c = '/' then (⟨acc.reverse⟩ : String) :: splitSegsAux cs []
    else splitSegsAux cs (c :: acc)

def splitSegs (s : String) : List String := splitSegsAux s.data []

def cleanPush (r : Bool) (stack : List String) (seg : String) : List String :=
  if seg = "" ∨ seg = "." then stack
  else if seg = ".." then
    match stack with
    | s :: rest => if s = ".." then seg :: s :: rest else rest
    | [] => if r then [] else [".."]
  else seg :: stack

def stackOf (r : Bool) (segs : List String) : List String :=
  segs.foldl (cleanPush r) []

def joinSegs : List String → String
  | [] => ""
  | [s] => s
  | s :: rest => s ++ "/" ++ joinSegs rest

def strRooted (s : String) : Bool :=
  match s.data with
  | [] => false
  | c :: _ => c = '/'

def renderStack (r : Bool) (stack : List String) : String :=
  if r then "/" ++ joinSegs stack.reverse
  else if stack = [] then "." else joinSegs stack.reverse

def pathClean (s : String) : String :=
  if s = "" then "."
  else renderStack (strRooted s) (stackOf (strRooted s) (splitSegs s))

def pathJoin (a b : String) : String :=
  if a = "" ∧ b = "" then ""
  else if a = "" then pathClean b
  else if b = "" then pathClean a
  else pathClean (a ++ "/" ++ b)

def pathDir (s : String) : String :=
  pathClean ⟨(s.data.reverse.dropWhile (fun c => ¬ c = '/')).reverse⟩

def extRev : List Char → List Char → Option (List Char)
  | [], _ => none
  | c :: rest, acc =>
    if c = '/' then none
    else if c = '.' then some (c :: acc)
    else extRev rest (c :: acc)

def pathExt (s : String) : String :=
  match extRev s.data.reverse [] with
  | none => ""
  | some l => ⟨l⟩

/-! ## `ChangeExtension` (path.go) -/

def ChangeExtension (fileName ext : String) : String :=
  let ext2 := if ext ≠ "" ∧ hasPrefixStr ext "." = false then "." ++ ext else ext
  let currentExt := pathExt fileName
  if currentExt = ext2 then fileName
  else trimSuffixStr fileName currentExt ++ ext2

/-- The extension argument normalized to carry a leading separator, as
`ChangeExtension` computes it internally. -/
def normExt (ext : String) : String :=
  if ext = "" then "" else if hasPrefixStr ext "." then ext else "." ++ ext

/-! ## `FileInfo` and filter combinators (fs.go)

`FileInfo` is the metadata snapshot handed to filters; only the fields of
`fs.FileInfo` that the model can populate are kept. -/

structure FileInfo where
  name : String
  isDir : Bool
  size : Nat
  modTime : Nat
  perm : Nat
deriving DecidableEq

def FileFilter : Type := FileInfo → Bool

def WithEverything : FileFilter := fun _ => true

def WithExt (extension : String) : FileFilter :=
  if extension = "" ∨ extension = "." then WithEverything
  else
    let ext := "." ++ trimPrefixDot (goToLower extension)
    fun f => hasSuffixStr (goToLower f.name) ext

def WithExts (extensions : List String) : FileFilter :=
  let filters := extensions.map WithExt
  fun f => filters.any (fun flt => flt f)

def fileMatchesFilters (file : FileInfo) (filters : List FileFilter) : Bool :=
  filters.all (fun flt => flt file)

/-! ## `path.Match` (the glob matcher behind `WithPattern`)

A rune-level port of Go's `path.Match` chunk machinery.  The non-structural
loops take an explicit fuel argument that is always instantiated large enough
(each iteration consumes at least one character). -/

def stripStars : List Char → Bool × List Char
  | '*' :: rest => (true, (stripStars rest).2)
  | l => (false, l)

def chunkSplit : List Char → Bool → List Char × List Char
  | [], _ => ([], [])
  | c :: cs, inrange =>
    if c = '\\' then
      match cs with
      | [] => ([c], [])
      | c2 :: cs2 =>
        let r := chunkSplit cs2 inrange
        (c :: c2 :: r.1, r.2)
    else if c = '[' then
      let r := chunkSplit cs true
      (c :: r.1, r.2)
    else if c = ']' then
      let r := chunkSplit cs false
      (c :: r.1, r.2)
    else if c = '*' ∧ ¬ inrange then ([], c :: cs)
    else
      let r := chunkSplit cs inrange
      (c :: r.1, r.2)

def scanChunk (pattern : List Char) : Bool × List Char × List Char :=
  let sp := stripStars pattern
  let cr := chunkSplit sp.2 false
  (sp.1, cr.1, cr.2)

def getEsc : List Char → Option (Char × List Char)
  | [] => none
  | c :: cs =>
    if c = '-' ∨ c = ']' then none
    else if c = '\\' then
      match cs with
      | [] => none
      | c2 :: cs2 => if cs2 = [] then none else some (c2, cs2)
    else if cs = [] then none
    else some (c, cs)

def classRanges : Nat → List Char → Char → Bool → Nat → Option (Bool × List Char)
  | 0, _, _, _, _ => none
  | fuel + 1, chunk, r, matched, nrange =>
    match chunk with
    | ']' :: rest => if nrange > 0 then some (matched, rest) else none
    | _ =>
      match getEsc chunk with
      | none => none
      | some (lo, ch1) =>
        match ch1 with
        | '-' :: ch2 =>
          match getEsc ch2 with
          | none => none
          | some (hi, ch3) =>
            classRanges fuel ch3 r (matched || (decide (lo ≤ r) && decide (r ≤ hi))) (nrange + 1)
        | _ =>
          classRanges fuel ch1 r (matched || (decide (lo ≤ r) && decide (r ≤ lo))) (nrange + 1)

inductive MRes where
  | bad : MRes
  | failedRes : MRes
  | more : List Char → MRes
deriving DecidableEq

def matchChunk : Nat → List Char → List Char → Bool → MRes
  | 0, _, _, _ => .bad
  | _ + 1, [], s, failedFlag => if failedFlag then .failedRes else .more s
  | fuel + 1, c :: rest, s, failedFlag =>
    let failed1 := failedFlag || s.isEmpty
    if c = '[' then
      let r := if failed1 then 'a' else s.headD 'a'
      let s1 := if failed1 then s else s.tail
      let nb : Bool × List Char :=
        match rest with
        | '^' :: rest2 => (true, rest2)
        | _ => (false, rest)
      match classRanges (nb.2.length + 1) nb.2 r false 0 with
      | none => .bad
      | some (m, chunkNext) => matchChunk fuel chunkNext s1 (failed1 || decide (m = nb.1))
    else if c = '?' then
      if failed1 then matchChunk fuel rest s true
      else matchChunk fuel rest s.tail (decide (s.headD 'a' = '/'))
    else if c = '\\' then
      match rest with
      | [] => .bad
      | c2 :: rest2 =>
        if failed1 then matchChunk fuel rest2 s true
        else matchChunk fuel rest2 s.tail (decide (¬ s.headD 'a' = c2))
    else
      if failed1 then matchChunk fuel rest s true
      else matchChunk fuel rest s.tail (decide (¬ s.headD 'a' = c))

def tryStar : Nat → List Char → List Char → List Char → Option (Option (List Char))
  | 0, _, _, _ => some none
  | fuel + 1, chunk, rest, name =>
    match name with
    | [] => some none
    | c :: nameRest =>
      if c = '/' then some none
      else
        match matchChunk (chunk.length + 1) chunk nameRest false with
        | .bad => none
        | .more t =>
          if rest.isEmpty && !t.isEmpty then tryStar fuel chunk rest nameRest
          else some (some t)
        | .failedRes => tryStar fuel chunk rest nameRest

def restPatternOK : Nat → List Char → Bool
  | 0, _ => false
  | _ + 1, [] => true
  | fuel + 1, pat =>
    let sc := scanChunk pat
    match matchChunk (sc.2.1.length + 1) sc.2.1 [] false with
    | .bad => false
    | _ => restPatternOK fuel sc.2.2

def goMatchAux : Nat → List Char → List Char → Option Bool
  | 0, _, _ => none
  | fuel + 1, pattern, name =>
    match pattern with
    | [] => some name.isEmpty
    | _ =>
      let sc := scanChunk pattern
      let star := sc.1
      let chunk := sc.2.1
      let rest := sc.2.2
      if star ∧ chunk = [] then some (!(name.contains '/'))
      else
        match matchChunk (chunk.length + 1) chunk name false with
        | .more t =>
          if t.isEmpty || !rest.isEmpty then goMatchAux fuel rest t
          else if star then
            match tryStar (name.length + 1) chunk rest name with
            | none => none
            | some (some t2) => goMatchAux fuel rest t2
            | some none => if restPatternOK (rest.length + 1) rest then some false else none
          else if restPatternOK (rest.length + 1) rest then some false else none
        | .bad => none
        | .failedRes =>
          if star then
            match tryStar (name.length + 1) chunk rest name with
            | none => none
            | some (some t2) => goMatchAux fuel rest t2
            | some none => if restPatternOK (rest.length + 1) rest then some false else none
          else if restPatternOK (rest.length + 1) rest then some false else none

def goMatch (pattern name : String) : Option Bool :=
  goMatchAux (pattern.data.length + 1) pattern.data name.data

def WithPattern (pattern : String) : FileFilter :=
  if pattern = "" then WithEverything
  else fun f =>
    match goMatch pattern f.name with
    | some b => b
    | none => false

/-! ## The storage layer

A symbolic POSIX file tree: a finite association list from absolute
normalized paths (lists of segments, root first) to entries, plus the
process's current working directory.  The root `[]` always exists as a
directory.  Path walking fails with `enotdir` as soon as a strict ancestor of
the target is a regular file, mirroring the kernel's component walk. -/

abbrev SysPath := List String

inductive Kind where
  | file : String → Kind
  | dir : Kind
deriving DecidableEq

inductive Err where
  | enoent | enotdir | eisdir | enotempty | einval
deriving DecidableEq

structure Sys where
  entries : List (SysPath × Kind)
  cwd : SysPath
deriving DecidableEq

def findKind : List (SysPath × Kind) → SysPath → Option Kind
  | [], _ => none
  | (q, k) :: rest, p => if q = p then some k else findKind rest p

def lookupKind (es : List (SysPath × Kind)) (p : SysPath) : Option Kind :=
  if p = [] then some .dir else findKind es p

def isFileOpt : Option Kind → Bool
  | some (.file _) => true
  | _ => false

def properPrefixes : SysPath → List SysPath
  | [] => []
  | s :: rest => [] :: (properPrefixes rest).map (s :: ·)

def walkBlocked (es : List (SysPath × Kind)) (p : SysPath) : Bool :=
  (properPrefixes p).any (fun q => isFileOpt (lookupKind es q))

def walkStat (es : List (SysPath × Kind)) (p : SysPath) : Except Err Kind :=
  if walkBlocked es p then .error .enotdir
  else
    match lookupKind es p with
    | none => .error .enoent
    | some k => .ok k

/-- Lexical resolution of one path segment against an absolute path, as the
kernel resolves `.` and `..` (`..` at the root stays at the root). -/
def resolveStep (p : SysPath) (seg : String) : SysPath :=
  if seg = "" ∨ seg = "." then p
  else if seg = ".." then p.dropLast
  else p ++ [seg]

def resolvePath (cwd : SysPath) (s : String) : SysPath :=
  (splitSegs s).foldl resolveStep (if strRooted s then [] else cwd)

def Sys.resolve (st : Sys) (s : String) : SysPath := resolvePath st.cwd s

def kindInfo (name : String) (k : Kind) : FileInfo :=
  match k with
  | .file c => ⟨name, false, c.data.length, 0, 420⟩
  | .dir => ⟨name, true, 0, 0, 493⟩

/-- The direct children of directory `p`: the entries lying exactly one
segment below `p`, as (name, kind) pairs. -/
def childEntries : List (SysPath × Kind) → SysPath → List (String × Kind)
  | [], _ => []
  | (q, k) :: rest, p =>
    if q.take p.length = p ∧ q.length = p.length + 1 then
      (q.getLastD "", k) :: childEntries rest p
    else childEntries rest p

def ltChars : List Char → List Char → Bool
  | [], [] => false
  | [], _ :: _ => true
  | _ :: _, [] => false
  | a :: as, b :: bs => if a < b then true else if b < a then false else ltChars as bs

def strLt (a b : String) : Bool := ltChars a.data b.data

def insertByName (f : FileInfo) : List FileInfo → List FileInfo
  | [] => [f]
  | g :: gs => if strLt f.name g.name then f :: g :: gs else g :: insertByName f gs

/-- `os.ReadDir` sorts its result by file name. -/
def sortByName (l : List FileInfo) : List FileInfo := l.foldr insertByName []

/-- `os.Stat`: resolve relative to the process working directory, walk, and
report the entry's metadata. -/
def osStat (st : Sys) (s : String) : Except Err FileInfo :=
  let p := st.resolve s
  match walkStat st.entries p with
  | .error e => .error e
  | .ok k => .ok (kindInfo (p.getLastD "/") k)

/-- `os.ReadDir`: walk to the path; a regular file at the path itself (or at
any ancestor) is `enotdir`, a missing entry `enoent`. -/
def osReadDir (st : Sys) (s : String) : Except Err (List FileInfo) :=
  let p := st.resolve s
  match walkStat st.entries p with
  | .error e => .error e
  | .ok (.file _) => .error .enotdir
  | .ok .dir =>
    .ok (sortByName ((childEntries st.entries p).map (fun nk => kindInfo nk.1 nk.2)))

def insertDirs (es : List (SysPath × Kind)) (ps : List SysPath) : List (SysPath × Kind) :=
  ps.foldl (fun acc p => if (lookupKind acc p).isSome then acc else acc ++ [(p, Kind.dir)]) es

/-- `os.MkdirAll`: fails (without side effects) when the path or one of its
ancestors exists as a regular file; otherwise creates every missing
directory along the path. -/
def osMkdirAll (st : Sys) (s : String) : Sys × Option Err :=
  let p := st.resolve s
  if (properPrefixes p ++ [p]).any (fun q => isFileOpt (lookupKind st.entries q)) then
    (st, some .enotdir)
  else
    ({ st with entries := insertDirs st.entries (properPrefixes p ++ [p]) }, none)

def subtreeMove (es : List (SysPath × Kind)) (f t : SysPath) : List (SysPath × Kind) :=
  es.map (fun e => if f.isPrefixOf e.1 then (t ++ e.1.drop f.length, e.2) else e)

def removeEntry (es : List (SysPath × Kind)) (p : SysPath) : List (SysPath × Kind) :=
  es.filter (fun e => decide (¬ e.1 = p))

/-- `os.Rename` with POSIX `rename(2)` semantics: an existing file
destination is replaced when the source is a file; an existing directory
destination must be an empty directory and the source a directory; renaming
a directory into its own subtree is `einval`.  On error the tree is
untouched (rename is atomic). -/
def osRename (st : Sys) (sFrom sTo : String) : Sys × Option Err :=
  let f := st.resolve sFrom
  let t := st.resolve sTo
  match walkStat st.entries f with
  | .error e => (st, some e)
  | .ok fk =>
    match walkStat st.entries t.dropLast with
    | .error e => (st, some e)
    | .ok (.file _) => (st, some .enotdir)
    | .ok .dir =>
      if f = t then (st, none)
      else if f.isPrefixOf t then (st, some .einval)
      else
        match lookupKind st.entries t with
        | none => ({ st with entries := subtreeMove st.entries f t }, none)
        | some (.file _) =>
          match fk with
          | .file _ => ({ st with entries := subtreeMove (removeEntry st.entries t) f t }, none)
          | .dir => (st, some .enotdir)
        | some .dir =>
          match fk with
          | .file _ => (st, some .eisdir)
          | .dir =>
            if childEntries st.entries t = [] then
              ({ st with entries := subtreeMove (removeEntry st.entries t) f t }, none)
            else (st, some .enotempty)

/-! ## `DiskFS` (disk.go) -/

structure DiskFS where
  basePath : String

def Disk (basePath : String) : DiskFS := ⟨basePath⟩

def DiskFS.WorkingDirectory (d : DiskFS) : String := pathClean d.basePath

def DiskFS.ChangeDirectory (d : DiskFS) (dir : String) : DiskFS :=
  Disk (pathJoin d.basePath dir)

def DiskFS.Stat (d : DiskFS) (st : Sys) (filePath : String) : Except Err FileInfo :=
  osStat st (pathJoin d.basePath filePath)

/-- `DiskFS.Exists` as written in disk.go: it stats `filePath` itself,
without joining the base path. -/
def DiskFS.Exists (d : DiskFS) (st : Sys) (filePath : String) : Bool :=
  match osStat st filePath with
  | .ok _ => true
  | .error _ => false

protected def DiskFS.List (d : DiskFS) (st : Sys) (dirPath : String)
    (filters : List FileFilter) : Except Err (List FileInfo) :=
  match osReadDir st (pathJoin d.basePath dirPath) with
  | .error .enoent => .ok []
  | .error e => .error e
  | .ok entries => .ok (entries.filter (fun f => fileMatchesFilters f filters))

/-- `DiskFS.Move`: stat the source, eagerly create the destination's parent
directory, then rename. -/
def DiskFS.Move (d : DiskFS) (st : Sys) (fromPath toPath : String) : Sys × Option Err :=
  let f := pathJoin d.basePath fromPath
  let t := pathJoin d.basePath toPath
  match osStat st f with
  | .error e => (st, some e)
  | .ok _ =>
    match osMkdirAll st (pathDir t) with
    | (st1, some e) => (st1, some e)
    | (st1, none) => osRename st1 f t

/-! ## Concrete example stores and stack invariants -/

def fiOf (n : String) : FileInfo := ⟨n, false, 0, 0, 0⟩

def sanitySys : Sys :=
  ⟨[(["d"], Kind.dir), (["d", "a.txt"], Kind.file "x"), (["d", "b.log"], Kind.file "yy"),
    (["d", "sub"], Kind.dir), (["f"], Kind.file "z")], []⟩

def stDirExt : Sys :=
  ⟨[(["d"], Kind.dir), (["d", "a.txt"], Kind.file "x"), (["d", "sub.txt"], Kind.dir)], []⟩

def stC5 : Sys :=
  ⟨[(["d"], Kind.dir), (["d", "a.txt"], Kind.file "x"), (["d", "b.txt"], Kind.file "y"),
    (["d", "a.log"], Kind.file "z")], []⟩

def stC9 : Sys :=
  ⟨[(["d"], Kind.dir), (["d", "x.json"], Kind.file "1"), (["d", "y.yaml"], Kind.file "2")], []⟩

def stHello : Sys :=
  ⟨[(["testdata"], Kind.dir), (["testdata", "hello.txt"], Kind.file "Hello, World")], []⟩

def stLebowski : Sys :=
  ⟨[(["dude"], Kind.dir), (["duderino"], Kind.dir),
    (["duderino", "5.lebowski"], Kind.file "jackie"),
    (["duderino", "6.lebowski"], Kind.file "nihilist")], []⟩

def stUnderFile : Sys := ⟨[(["f"], Kind.file "x")], []⟩

def stAtomic : Sys := ⟨[(["d"], Kind.dir)], []⟩

def dotsLow : List String → Bool
  | [] => true
  | s :: rest => if s = ".." then rest.all (fun t => t = "..") else dotsLow rest

/-- The invariant of the stacks reachable by `cleanPush`: no empty or `.`
segments, no `/` inside a segment, all `..` segments sit at the bottom, and
a rooted stack has none at all. -/
def StackOK (r : Bool) (stack : List String) : Prop :=
  (∀ s ∈ stack, ¬ s = "" ∧ ¬ s = "." ∧ '/' ∉ s.data)
  ∧ dotsLow stack = true
  ∧ (r = true → ∀ s ∈ stack, ¬ s = "..")

/-! ## Sanity checks for the embedding -/

theorem sanity_clean1 : pathClean "/a/../b//./c/.." = "/b" := by decide
theorem sanity_clean2 : pathClean "a/../../b" = "../b" := by decide
theorem sanity_clean3 : pathClean "" = "." ∧ pathClean "/" = "/" ∧ pathClean "./" = "." := by decide
theorem sanity_join1 : pathJoin "testdata" "inner1" = "testdata/inner1" := by decide
theorem sanity_join2 : pathJoin "testdata/inner1/inner2" "../.." = "testdata" := by decide
theorem sanity_join3 : pathJoin "" "/b" = "/b" ∧ pathJoin "" "" = "" := by decide
theorem sanity_dir1 : pathDir "a/b/c" = "a/b" ∧ pathDir "c" = "." ∧ pathDir "/c" = "/" := by decide
theorem sanity_ext1 : pathExt "foo.txt" = ".txt" ∧ pathExt "foo" = "" ∧ pathExt "foo." = "." ∧ pathExt "a.b/c" = "" := by decide
theorem sanity_chext1 : ChangeExtension "foo.png" "txt" = "foo.txt"
    ∧ ChangeExtension "foo" "txt" = "foo.txt"
    ∧ ChangeExtension "foo.bar." "" = "foo.bar"
    ∧ ChangeExtension "" "txt" = ".txt"
    ∧ ChangeExtension "txt.txt.txt" ".jpeg" = "txt.txt.jpeg"
    ∧ ChangeExtension "a.b" "multi.dot.ext" = "a.multi.dot.ext" := by decide

theorem sanity_withext1 : WithExt "txt" (fiOf "a.TXT") = true
    ∧ WithExt ".txt" (fiOf "hello.txt") = true
    ∧ WithExt "txt" (fiOf "a.png") = false
    ∧ WithExt "" (fiOf "zzz") = true := by decide

theorem sanity_sys1 :
    osStat sanitySys "d/a.txt" = .ok ⟨"a.txt", false, 1, 0, 420⟩
    ∧ osStat sanitySys "nope" = .error .enoent
    ∧ osStat sanitySys "f/x" = .error .enotdir
    ∧ osReadDir sanitySys "d" = .ok [⟨"a.txt", false, 1, 0, 420⟩, ⟨"b.log", false, 2, 0, 420⟩, ⟨"sub", true, 0, 0, 493⟩]
    ∧ osReadDir sanitySys "f" = .error .enotdir
    ∧ (Disk ".").List sanitySys "d" [WithExt "txt"] = .ok [⟨"a.txt", false, 1, 0, 420⟩]
    ∧ (Disk "d").List sanitySys "." [] = .ok [⟨"a.txt", false, 1, 0, 420⟩, ⟨"b.log", false, 2, 0, 420⟩, ⟨"sub", true, 0, 0, 493⟩]
    ∧ (Disk ".").List sanitySys "missing" [] = .ok [] := by decide

theorem sanity_move1 :
    ((Disk ".").Move sanitySys "d/a.txt" "d/renamed.txt").2 = none
    ∧ ((Disk ".").Move sanitySys "d/a.txt" "d/renamed.txt").1.entries
      = [(["d"], Kind.dir), (["d", "renamed.txt"], Kind.file "x"), (["d", "b.log"], Kind.file "yy"),
         (["d", "sub"], Kind.dir), (["f"], Kind.file "z")]
    ∧ ((Disk ".").Move sanitySys "nope" "other").2 = some .enoent
    ∧ ((Disk ".").Move sanitySys "d/a.txt" "d/b.log").2 = none
    ∧ ((Disk ".").Move sanitySys "d/a.txt" "d/sub").2 = some .eisdir
    ∧ ((Disk ".").Move sanitySys "d" "f").2 = some .enotdir
    ∧ ((Disk ".").Move sanitySys "d/sub" "d/a.txt").2 = some .enotdir := by decide

theorem sanity_match1 : goMatch "*.txt" "a.txt" = some true
    ∧ goMatch "*.txt" "a.png" = some false
    ∧ goMatch "a?c" "abc" = some true
    ∧ goMatch "[a-c]x" "bx" = some true
    ∧ goMatch "[^a-c]x" "dx" = some true
    ∧ goMatch "[^a-c]x" "bx" = some false
    ∧ goMatch "[" "x" = none
    ∧ goMatch "a*b*c" "aXbYc" = some true
    ∧ goMatch "a/*" "a/b" = some true
    ∧ goMatch "*" "a/b" = some false
    ∧ goMatch "ab[" "ab" = none := by decide

/-! ## Helper lemmas: strings and filters -/

theorem strEta (s : String) : (⟨s.data⟩ : String) = s := rfl

theorem strExt {a b : String} (h : a.data = b.data) : a = b := by
  cases a; cases b; exact congrArg String.mk h

theorem toLower_ne_dot {c : Char} (h : ¬ c = '.') : ¬ c.toLower = '.' := by
  unfold Char.toLower
  simp only []
  by_cases hrange : c.toNat ≥ 65 ∧ c.toNat ≤ 90
  · rw [if_pos hrange]
    intro hEq
    have hv : (c.toNat + 32).isValidChar := Or.inl (by omega)
    have h46 : ('.' : Char).toNat = 46 := by decide
    have hc := congrArg Char.toNat hEq
    rw [h46] at hc
    rw [Char.ofNat, dif_pos hv] at hc
    rw [show ∀ (n : Nat) (hh : n.isValidChar), (Char.ofNatAux n hh).toNat = n from ?_] at hc
    · omega
    · intro n hh
      simp [Char.ofNatAux, Char.toNat, UInt32.toNat]
  · rw [if_neg hrange]
    exact h

theorem hasPrefixStr_dot_iff (s : String) :
    hasPrefixStr s "." = true ↔ s.data.head? = some '.' := by
  unfold hasPrefixStr
  cases hd : s.data with
  | nil => simp [List.isPrefixOf]
  | cons c cs =>
    show ([('.' : Char)].isPrefixOf (c :: cs)) = true ↔ _
    simp [List.isPrefixOf]
    constructor
    · intro h; rw [h]
    · intro h; exact h.symm

theorem goToLower_data (s : String) : (goToLower s).data = s.data.map Char.toLower := rfl

theorem trimPrefixDot_of_head {s : String} (h : ¬ s.data.head? = some '.') :
    trimPrefixDot s = s := by
  unfold trimPrefixDot
  rw [if_neg]
  intro hp
  exact h ((hasPrefixStr_dot_iff s).mp hp)

theorem trimPrefixDot_lower_of_not_dot {e : String} (h : hasPrefixStr e "." = false) :
    trimPrefixDot (goToLower e) = goToLower e := by
  apply trimPrefixDot_of_head
  rw [goToLower_data, List.head?_map]
  intro hc
  cases hd : e.data with
  | nil => rw [hd] at hc; simp at hc
  | cons c cs =>
    rw [hd] at hc
    simp at hc
    have hcdot : ¬ c = '.' := by
      intro hh
      have ht : hasPrefixStr e "." = true :=
        (hasPrefixStr_dot_iff e).mpr (by rw [hd, hh]; rfl)
      rw [h] at ht
      exact Bool.false_ne_true ht
    exact toLower_ne_dot hcdot hc

theorem withExt_eq_of_ne (e : String) (h1 : ¬ e = "") (h2 : ¬ e = ".") (f : FileInfo) :
    WithExt e f = hasSuffixStr (goToLower f.name) ("." ++ trimPrefixDot (goToLower e)) := by
  unfold WithExt
  rw [if_neg (not_or.mpr ⟨h1, h2⟩)]

theorem goToLower_dot_append (e : String) : goToLower ("." ++ e) = "." ++ goToLower e := by
  apply strExt
  rw [goToLower_data, String.data_append, String.data_append, goToLower_data]
  have hd : ("." : String).data = ['.'] := rfl
  rw [hd]
  simp only [List.map_append, List.map_cons, List.map_nil]
  rfl

theorem trimPrefixDot_dot_append (x : String) : trimPrefixDot ("." ++ x) = x := by
  unfold trimPrefixDot
  have hdata : ("." ++ x).data = '.' :: x.data := by
    rw [String.data_append]; rfl
  rw [if_pos ((hasPrefixStr_dot_iff _).mpr (by rw [hdata]; rfl))]
  rw [hdata]
  exact strEta x

theorem withExt_dot_equiv (e : String) (h : hasPrefixStr e "." = false) (f : FileInfo) :
    WithExt e f = WithExt ("." ++ e) f := by
  by_cases he : e = ""
  · subst he
    rw [show ("." ++ "" : String) = "." from by decide]
    rfl
  · have hdot : ¬ e = "." := by
      intro hh; subst hh; exact absurd h (by decide)
    have hne1 : ¬ ("." ++ e) = "" := by
      intro hh
      have hc := congrArg String.data hh
      rw [String.data_append] at hc
      simp at hc
    have hne2 : ¬ ("." ++ e) = "." := by
      intro hh
      have hc := congrArg String.data hh
      rw [String.data_append] at hc
      have : e.data = [] := by
        have hl := congrArg List.length hc
        rw [List.length_append] at hl
        simpa using List.length_eq_zero.mp (by omega)
      exact he (strExt this)
    rw [withExt_eq_of_ne e he hdot, withExt_eq_of_ne _ hne1 hne2]
    rw [goToLower_dot_append, trimPrefixDot_dot_append, trimPrefixDot_lower_of_not_dot h]

theorem withExt_name_only (e : String) (f g : FileInfo) (h : f.name = g.name) :
    WithExt e f = WithExt e g := by
  by_cases he : e = "" ∨ e = "."
  · unfold WithExt
    rw [if_pos he]
    rfl
  · push_neg at he
    rw [withExt_eq_of_ne e he.1 he.2, withExt_eq_of_ne e he.1 he.2, h]

theorem anyWithExt_name_only (es : List String) (f g : FileInfo) (h : f.name = g.name) :
    (es.map WithExt).any (fun flt => flt f) = (es.map WithExt).any (fun flt => flt g) := by
  induction es with
  | nil => rfl
  | cons e es ih =>
    simp only [List.map_cons, List.any_cons]
    rw [withExt_name_only e f g h, ih]

theorem withExts_name_only (es : List String) (f g : FileInfo) (h : f.name = g.name) :
    WithExts es f = WithExts es g :=
  anyWithExt_name_only es f g h

theorem withPattern_name_only (pat : String) (f g : FileInfo) (h : f.name = g.name) :
    WithPattern pat f = WithPattern pat g := by
  unfold WithPattern
  by_cases hp : pat = ""
  · rw [if_pos hp]
    rfl
  · rw [if_neg hp]
    show (match goMatch pat f.name with | some b => b | none => false)
      = (match goMatch pat g.name with | some b => b | none => false)
    rw [h]

/-- Claim C7: `WithExt "txt"` and `WithExt ".txt"` accept and reject exactly the
same file names; more generally an extension supplied with or without a
leading separator yields the same filter, matching is case-insensitive
literal suffix comparison on the lowered name, and an empty or bare-"."
argument accepts every file. -/
theorem withExt_separator_equivalence :
    (∀ f : FileInfo, WithExt "txt" f = WithExt ".txt" f)
    ∧ (∀ (e : String) (f : FileInfo), hasPrefixStr e "." = false →
        WithExt e f = WithExt ("." ++ e) f)
    ∧ (∀ f : FileInfo, WithExt "" f = true ∧ WithExt "." f = true)
    ∧ (∀ (e : String) (f g : FileInfo), goToLower f.name = goToLower g.name →
        WithExt e f = WithExt e g)
    ∧ (∀ (e : String) (f : FileInfo), ¬ e = "" → ¬ e = "." →
        WithExt e f = hasSuffixStr (goToLower f.name) ("." ++ trimPrefixDot (goToLower e))) := by
  refine ⟨?_, ?_, ?_, ?_, ?_⟩
  · intro f
    have h := withExt_dot_equiv "txt" (by decide) f
    rwa [show ("." ++ "txt" : String) = ".txt" from by decide] at h
  · intro e f h
    exact withExt_dot_equiv e h f
  · intro f
    exact ⟨rfl, rfl⟩
  · intro e f g h
    by_cases he : e = "" ∨ e = "."
    · unfold WithExt
      rw [if_pos he]
      rfl
    · push_neg at he
      rw [withExt_eq_of_ne e he.1 he.2, withExt_eq_of_ne e he.1 he.2, h]
  · intro e f h1 h2
    exact withExt_eq_of_ne e h1 h2 f

theorem withExt_separator_equivalence_witness :
    hasPrefixStr "log" "." = false
    ∧ WithExt "log" ⟨"A.LOG", false, 3, 0, 0⟩ = WithExt ("." ++ "log") ⟨"A.LOG", false, 3, 0, 0⟩ :=
  ⟨by decide, withExt_separator_equivalence.2.1 "log" ⟨"A.LOG", false, 3, 0, 0⟩ (by decide)⟩

/-- Claim C10: every built-in filter looks only at the `FileInfo`'s name —
two infos with equal names get the same verdict whatever their directory
flag, size, modification time or permissions — and in particular a directory
whose name carries a matching extension is accepted by an extension filter
and shows up in `List` results. -/
theorem filters_depend_only_on_name :
    (∀ (e : String) (f g : FileInfo), f.name = g.name → WithExt e f = WithExt e g)
    ∧ (∀ (es : List String) (f g : FileInfo), f.name = g.name → WithExts es f = WithExts es g)
    ∧ (∀ (pat : String) (f g : FileInfo), f.name = g.name → WithPattern pat f = WithPattern pat g)
    ∧ (∀ (f g : FileInfo), f.name = g.name → WithEverything f = WithEverything g)
    ∧ WithExt "txt" (kindInfo "sub.txt" Kind.dir) = true
    ∧ (Disk ".").List stDirExt "d" [WithExt "txt"]
        = .ok [kindInfo "a.txt" (Kind.file "x"), kindInfo "sub.txt" Kind.dir] := by
  refine ⟨withExt_name_only, withExts_name_only, withPattern_name_only, fun f g _ => rfl, ?_, ?_⟩
  · decide
  · decide

theorem filters_depend_only_on_name_witness :
    (FileInfo.mk "a.txt" false 1 2 3).name = (FileInfo.mk "a.txt" true 9 8 7).name
    ∧ WithExt "txt" ⟨"a.txt", false, 1, 2, 3⟩ = WithExt "txt" ⟨"a.txt", true, 9, 8, 7⟩ :=
  ⟨rfl, filters_depend_only_on_name.1 "txt" ⟨"a.txt", false, 1, 2, 3⟩ ⟨"a.txt", true, 9, 8, 7⟩ rfl⟩

/-! ## Helper lemmas: `DiskFS.List` -/

theorem mem_insertByName {f a : FileInfo} {l : List FileInfo} :
    a ∈ insertByName f l ↔ a = f ∨ a ∈ l := by
  induction l with
  | nil => simp [insertByName]
  | cons g gs ih =>
    simp only [insertByName]
    split
    · simp [List.mem_cons]
    · simp only [List.mem_cons, ih]
      tauto

theorem mem_sortByName {a : FileInfo} {l : List FileInfo} :
    a ∈ sortByName l ↔ a ∈ l := by
  induction l with
  | nil => simp [sortByName]
  | cons g gs ih =>
    show a ∈ insertByName g (sortByName gs) ↔ _
    rw [mem_insertByName]
    rw [show (a ∈ sortByName gs) = (a ∈ gs) from propext ih]
    simp [List.mem_cons]

theorem list_dir_eq (d : DiskFS) (st : Sys) (dirPath : String) (filters : List FileFilter)
    (h : walkStat st.entries (st.resolve (pathJoin d.basePath dirPath)) = .ok .dir) :
    DiskFS.List d st dirPath filters =
      .ok ((sortByName ((childEntries st.entries (st.resolve (pathJoin d.basePath dirPath))).map
        (fun nk => kindInfo nk.1 nk.2))).filter (fun f => fileMatchesFilters f filters)) := by
  unfold DiskFS.List osReadDir
  simp only [h]

/-- Claim C5: filter composition in `List` is conjunctive — on an existing
directory the result is exactly the direct children satisfying every
supplied filter (the intersection of the filters' accepted sets), and with
zero filters every child is included. -/
theorem list_filters_conjunctive :
    ∀ (d : DiskFS) (st : Sys) (dirPath : String) (filters : List FileFilter),
      walkStat st.entries (st.resolve (pathJoin d.basePath dirPath)) = .ok .dir →
      DiskFS.List d st dirPath filters =
        .ok ((sortByName ((childEntries st.entries (st.resolve (pathJoin d.basePath dirPath))).map
          (fun nk => kindInfo nk.1 nk.2))).filter (fun f => fileMatchesFilters f filters))
      ∧ (∀ fi : FileInfo,
          fi ∈ (sortByName ((childEntries st.entries (st.resolve (pathJoin d.basePath dirPath))).map
            (fun nk => kindInfo nk.1 nk.2))).filter (fun f => fileMatchesFilters f filters)
          ↔ fi ∈ (childEntries st.entries (st.resolve (pathJoin d.basePath dirPath))).map
              (fun nk => kindInfo nk.1 nk.2)
            ∧ ∀ flt ∈ filters, flt fi = true)
      ∧ (filters = [] →
          DiskFS.List d st dirPath filters =
            .ok (sortByName ((childEntries st.entries (st.resolve (pathJoin d.basePath dirPath))).map
              (fun nk => kindInfo nk.1 nk.2)))) := by
  intro d st p filters h
  refine ⟨list_dir_eq d st p filters h, ?_, ?_⟩
  · intro fi
    rw [List.mem_filter]
    rw [show (fi ∈ sortByName ((childEntries st.entries (st.resolve (pathJoin d.basePath p))).map
      (fun nk => kindInfo nk.1 nk.2))) = (fi ∈ (childEntries st.entries
      (st.resolve (pathJoin d.basePath p))).map (fun nk => kindInfo nk.1 nk.2))
      from propext mem_sortByName]
    constructor
    · rintro ⟨h1, h2⟩
      exact ⟨h1, List.all_eq_true.mp h2⟩
    · rintro ⟨h1, h2⟩
      exact ⟨h1, List.all_eq_true.mpr h2⟩
  · rintro rfl
    rw [list_dir_eq d st p [] h]
    rw [show (fun f : FileInfo => fileMatchesFilters f []) = (fun _ => true) from rfl,
      List.filter_true]

theorem list_filters_conjunctive_witness :
    walkStat stC5.entries (stC5.resolve (pathJoin (Disk ".").basePath "d")) = .ok Kind.dir
    ∧ DiskFS.List (Disk ".") stC5 "d" [WithExt "txt", WithPattern "a*"] =
        .ok ((sortByName ((childEntries stC5.entries
            (stC5.resolve (pathJoin (Disk ".").basePath "d"))).map
          (fun nk => kindInfo nk.1 nk.2))).filter
            (fun f => fileMatchesFilters f [WithExt "txt", WithPattern "a*"]))
    ∧ DiskFS.List (Disk ".") stC5 "d" [WithExt "txt", WithPattern "a*"] =
        .ok [kindInfo "a.txt" (Kind.file "x")] :=
  ⟨by decide,
   (list_filters_conjunctive (Disk ".") stC5 "d" [WithExt "txt", WithPattern "a*"] (by decide)).1,
   by decide⟩

/-- Claim C9: `WithExts` with zero extensions rejects every `FileInfo` (the
empty disjunction), in contrast to `WithExt ""` and to a `List` call with
zero filters, both of which accept everything. -/
theorem withExts_empty_rejects_all :
    (∀ f : FileInfo, WithExts [] f = false)
    ∧ (∀ f : FileInfo, WithExt "" f = true)
    ∧ (∀ (d : DiskFS) (st : Sys) (dirPath : String),
        walkStat st.entries (st.resolve (pathJoin d.basePath dirPath)) = .ok .dir →
        DiskFS.List d st dirPath [] =
          .ok (sortByName ((childEntries st.entries
            (st.resolve (pathJoin d.basePath dirPath))).map (fun nk => kindInfo nk.1 nk.2))))
    ∧ (∀ f : FileInfo, fileMatchesFilters f [] = true) := by
  refine ⟨fun f => rfl, fun f => rfl, ?_, fun f => rfl⟩
  intro d st p h
  rw [list_dir_eq d st p [] h]
  rw [show (fun f : FileInfo => fileMatchesFilters f []) = (fun _ => true) from rfl,
    List.filter_true]

theorem withExts_empty_rejects_all_witness :
    WithExts [] ⟨"x.json", false, 1, 0, 420⟩ = false
    ∧ walkStat stC9.entries (stC9.resolve (pathJoin (Disk ".").basePath "d")) = .ok Kind.dir
    ∧ DiskFS.List (Disk ".") stC9 "d" [] =
        .ok (sortByName ((childEntries stC9.entries
          (stC9.resolve (pathJoin (Disk ".").basePath "d"))).map (fun nk => kindInfo nk.1 nk.2))) :=
  ⟨withExts_empty_rejects_all.1 ⟨"x.json", false, 1, 0, 420⟩, by decide,
   withExts_empty_rejects_all.2.2.1 (Disk ".") stC9 "d" (by decide)⟩

/-! ## Helper lemmas: `pathExt` / `ChangeExtension` -/

theorem extRev_suffix : ∀ (l acc r : List Char), extRev l acc = some r →
    ∃ t, l.reverse ++ acc = t ++ r := by
  intro l
  induction l with
  | nil =>
    intro acc r h
    exact absurd h (by simp [extRev])
  | cons c cs ih =>
    intro acc r h
    unfold extRev at h
    by_cases h1 : c = '/'
    · rw [if_pos h1] at h
      exact absurd h (by simp)
    · rw [if_neg h1] at h
      by_cases h2 : c = '.'
      · rw [if_pos h2] at h
        injection h with h
        subst h
        exact ⟨cs.reverse, by simp⟩
      · rw [if_neg h2] at h
        obtain ⟨t, ht⟩ := ih (c :: acc) r h
        exact ⟨t, by simpa [List.append_assoc] using ht⟩

theorem pathExt_suffix (s : String) : ∃ t, s.data = t ++ (pathExt s).data := by
  unfold pathExt
  cases h : extRev s.data.reverse [] with
  | none => exact ⟨s.data, by simp⟩
  | some l =>
    obtain ⟨t, ht⟩ := extRev_suffix _ _ _ h
    rw [List.reverse_reverse, List.append_nil] at ht
    exact ⟨t, ht⟩

theorem trim_append_of_suffix (s r : String) (h : ∃ t, s.data = t ++ r.data) :
    trimSuffixStr s r ++ r = s := by
  obtain ⟨t, ht⟩ := h
  have hsuf : hasSuffixStr s r = true := by
    unfold hasSuffixStr
    rw [List.isSuffixOf_iff_suffix]
    exact ⟨t, ht.symm⟩
  unfold trimSuffixStr
  rw [if_pos hsuf]
  apply strExt
  rw [String.data_append]
  show s.data.take (s.data.length - r.data.length) ++ r.data = s.data
  rw [ht, List.length_append,
    show t.length + r.data.length - r.data.length = t.length from by omega, List.take_left]

theorem trimSuffix_empty (s : String) : trimSuffixStr s "" = s := by
  unfold trimSuffixStr
  rw [if_pos (by simp [hasSuffixStr, List.isSuffixOf])]
  apply strExt
  show s.data.take (s.data.length - 0) = s.data
  simp

theorem strAppend_empty (a : String) : a ++ "" = a :=
  strExt (by rw [String.data_append]; simp [show ("" : String).data = [] from rfl])

theorem changeExtension_eq (n e : String) :
    ChangeExtension n e = trimSuffixStr n (pathExt n) ++ normExt e := by
  have hext2 : (if e ≠ "" ∧ hasPrefixStr e "." = false then "." ++ e else e) = normExt e := by
    unfold normExt
    by_cases h1 : e = ""
    · simp [h1]
    · by_cases h2 : hasPrefixStr e "." = false
      · simp [h1, h2]
      · simp only [ne_eq, h1, not_false_eq_true, true_and, h2, if_false]
        rw [if_neg (by simp at h2; simp [h2]), if_pos (by simp at h2; simp [h2])]
  unfold ChangeExtension
  simp only [hext2]
  split
  · next heq =>
    rw [← heq]
    exact (trim_append_of_suffix n (pathExt n) (pathExt_suffix n)).symm
  · rfl

/-- Claim C8: `ChangeExtension` strips the name's current trailing extension
(as computed by `path.Ext`) and appends the target extension normalized to
carry a leading separator; a name with no current extension just gets the
new extension appended, and an empty target strips the extension, leaving
the bare stem.  For a target with no leading separator the normalization
prepends exactly one. -/
theorem changeExtension_spec :
    (∀ n e : String, ChangeExtension n e = trimSuffixStr n (pathExt n) ++ normExt e)
    ∧ (∀ n e : String, pathExt n = "" → ChangeExtension n e = n ++ normExt e)
    ∧ (∀ n : String, ChangeExtension n "" = trimSuffixStr n (pathExt n))
    ∧ (∀ e : String, ¬ e = "" → hasPrefixStr e "." = false → normExt e = "." ++ e)
    ∧ (∀ e : String, hasPrefixStr e "." = true → normExt e = e) := by
  refine ⟨changeExtension_eq, ?_, ?_, ?_, ?_⟩
  · intro n e h
    rw [changeExtension_eq, h, trimSuffix_empty]
  · intro n
    rw [changeExtension_eq]
    show trimSuffixStr n (pathExt n) ++ "" = _
    rw [strAppend_empty]
  · intro e h1 h2
    unfold normExt
    rw [if_neg h1, if_neg (by simp [h2])]
  · intro e h
    unfold normExt
    by_cases h1 : e = ""
    · rw [if_pos h1, h1]
    · rw [if_neg h1, if_pos h]

theorem changeExtension_spec_witness :
    pathExt "foo" = ""
    ∧ ChangeExtension "foo" "txt" = "foo" ++ normExt "txt"
    ∧ ¬ ("png" : String) = ""
    ∧ hasPrefixStr "png" "." = false
    ∧ normExt "png" = "." ++ "png" :=
  ⟨by decide, changeExtension_spec.2.1 "foo" "txt" (by decide), by decide, by decide,
   changeExtension_spec.2.2.2.1 "png" (by decide) (by decide)⟩

/-! ## Claims about `Exists` and `Move` conflicts -/

/-- Claim C1 (code bug): `Exists` stats the raw path without prepending the
facade's root, so with root `testdata` (and the process's working directory
holding `testdata/hello.txt`) `Exists "hello.txt"` is `false` even though the
entry exists at the join of root and path (as `Stat`, which does join,
shows), and `Exists "testdata"` is `true` even though nothing exists at the
join; in general the result is independent of the facade's root. -/
theorem exists_ignores_root :
    (Disk "testdata").Exists stHello "hello.txt" = false
    ∧ (Disk "testdata").Stat stHello "hello.txt"
        = .ok (kindInfo "hello.txt" (Kind.file "Hello, World"))
    ∧ lookupKind stHello.entries (stHello.resolve (pathJoin "testdata" "hello.txt"))
        = some (Kind.file "Hello, World")
    ∧ (Disk "testdata").Exists stHello "testdata" = true
    ∧ lookupKind stHello.entries (stHello.resolve (pathJoin "testdata" "testdata")) = none
    ∧ (∀ (r₁ r₂ : String) (st : Sys) (p : String),
        (Disk r₁).Exists st p = (Disk r₂).Exists st p) :=
  ⟨by decide, by decide, by decide, by decide, by decide, fun r₁ r₂ st p => rfl⟩

/-- Claim C2 (code bug): with the fixture of
`TestMove_directoryRenameConflictDir` — a non-empty directory `duderino` and
an existing empty directory `dude` — `Move "duderino" "dude"` does not fail:
POSIX `rename(2)` replaces an empty destination directory, so the move
succeeds and `duderino`'s subtree ends up at `dude`, where the claim (and
the repo's own test) demand a `Conflict` error. -/
theorem move_dir_onto_empty_dir_succeeds :
    lookupKind stLebowski.entries ["dude"] = some Kind.dir
    ∧ childEntries stLebowski.entries ["dude"] = []
    ∧ lookupKind stLebowski.entries ["duderino"] = some Kind.dir
    ∧ ((Disk ".").Move stLebowski "duderino" "dude").2 = none
    ∧ ((Disk ".").Move stLebowski "duderino" "dude").1.entries
        = [(["dude"], Kind.dir), (["dude", "5.lebowski"], Kind.file "jackie"),
           (["dude", "6.lebowski"], Kind.file "nihilist")] :=
  ⟨by decide, by decide, by decide, by decide, by decide⟩

/-! ## Claim C4: `List` error policy -/

theorem walkStat_blocked {es : List (SysPath × Kind)} {p : SysPath}
    (hb : walkBlocked es p = true) : walkStat es p = .error .enotdir := by
  unfold walkStat
  rw [hb, if_pos rfl]

theorem walkStat_eq_of_not_blocked {es : List (SysPath × Kind)} {p : SysPath}
    (hb : walkBlocked es p = false) :
    walkStat es p =
      match lookupKind es p with
      | none => .error .enoent
      | some k => .ok k := by
  unfold walkStat
  rw [hb, if_neg Bool.false_ne_true]

/-- Claim C4 counterexample: nothing exists at the resolved `f/sub` (the
lookup is `none`), yet `List "f/sub"` returns an error rather than an empty
result, because the strict ancestor `f` is a regular file and the walk fails
with `enotdir`, which is not the not-exist error that `List` swallows. -/
theorem list_under_file_counterexample :
    lookupKind stUnderFile.entries
      (stUnderFile.resolve (pathJoin (Disk ".").basePath "f/sub")) = none
    ∧ DiskFS.List (Disk ".") stUnderFile "f/sub" [] = .error .enotdir :=
  ⟨by decide, by decide⟩

/-- Claim C4 (amended): if the resolved path is a regular file, `List` fails
with `NotADirectory`; if nothing exists at the resolved path and no strict
ancestor of it is a regular file, `List` returns an empty result with no
error; but when a strict ancestor is a regular file the storage layer's
`NotADirectory` error is surfaced even though nothing exists at the path. -/
theorem list_error_policy :
    ∀ (d : DiskFS) (st : Sys) (p : String) (filters : List FileFilter),
      (∀ c : String,
        lookupKind st.entries (st.resolve (pathJoin d.basePath p)) = some (Kind.file c) →
        DiskFS.List d st p filters = .error .enotdir)
      ∧ (walkBlocked st.entries (st.resolve (pathJoin d.basePath p)) = false →
          lookupKind st.entries (st.resolve (pathJoin d.basePath p)) = none →
          DiskFS.List d st p filters = .ok [])
      ∧ (walkBlocked st.entries (st.resolve (pathJoin d.basePath p)) = true →
          DiskFS.List d st p filters = .error .enotdir) := by
  intro d st p filters
  refine ⟨?_, ?_, ?_⟩
  · intro c hc
    by_cases hb : walkBlocked st.entries (st.resolve (pathJoin d.basePath p)) = true
    · unfold DiskFS.List osReadDir
      simp only [walkStat_blocked hb]
    · have hb' : walkBlocked st.entries (st.resolve (pathJoin d.basePath p)) = false := by
        revert hb
        cases walkBlocked st.entries (st.resolve (pathJoin d.basePath p)) <;> simp
      have hw : walkStat st.entries (st.resolve (pathJoin d.basePath p)) = .ok (Kind.file c) := by
        rw [walkStat_eq_of_not_blocked hb', hc]
      unfold DiskFS.List osReadDir
      simp only [hw]
  · intro hb h
    have hw : walkStat st.entries (st.resolve (pathJoin d.basePath p)) = .error .enoent := by
      rw [walkStat_eq_of_not_blocked hb, h]
    unfold DiskFS.List osReadDir
    simp only [hw]
  · intro hb
    unfold DiskFS.List osReadDir
    simp only [walkStat_blocked hb]

theorem list_error_policy_witness :
    lookupKind stUnderFile.entries
      (stUnderFile.resolve (pathJoin (Disk ".").basePath "f")) = some (Kind.file "x")
    ∧ DiskFS.List (Disk ".") stUnderFile "f" [] = .error .enotdir :=
  ⟨by decide, (list_error_policy (Disk ".") stUnderFile "f" []).1 "x" (by decide)⟩

/-! ## Claim C3: state after a failed `Move` -/

/-- Claim C3 counterexample: `Move "d" "d/sub/x"` fails (renaming a directory
into its own subtree is `einval`), yet the storage state is not what it was
before the call — the eager `MkdirAll` of the destination's parent has
created `d/sub`. -/
theorem move_failed_side_effect_counterexample :
    ((Disk ".").Move stAtomic "d" "d/sub/x").2 = some Err.einval
    ∧ ((Disk ".").Move stAtomic "d" "d/sub/x").1.entries
        = [(["d"], Kind.dir), (["d", "sub"], Kind.dir)]
    ∧ ¬ ((Disk ".").Move stAtomic "d" "d/sub/x").1 = stAtomic :=
  ⟨by decide, by decide, by decide⟩

theorem findKind_append_some : ∀ (es₁ es₂ : List (SysPath × Kind)) (p : SysPath) (k : Kind),
    findKind es₁ p = some k → findKind (es₁ ++ es₂) p = some k := by
  intro es₁
  induction es₁ with
  | nil =>
    intro es₂ p k h
    exact absurd h (by simp [findKind])
  | cons e rest ih =>
    intro es₂ p k h
    obtain ⟨q, k'⟩ := e
    simp only [findKind, List.cons_append] at h ⊢
    by_cases hq : q = p
    · rw [if_pos hq] at h ⊢
      exact h
    · rw [if_neg hq] at h ⊢
      exact ih es₂ p k h

theorem findKind_append_none (es₁ es₂ : List (SysPath × Kind)) (p : SysPath)
    (h : findKind (es₁ ++ es₂) p = none) : findKind es₁ p = none := by
  cases hf : findKind es₁ p with
  | none => rfl
  | some k =>
    rw [findKind_append_some es₁ es₂ p k hf] at h
    exact absurd h (by simp)

theorem lookupKind_append_none (es₁ es₂ : List (SysPath × Kind)) (p : SysPath)
    (h : lookupKind (es₁ ++ es₂) p = none) : lookupKind es₁ p = none := by
  unfold lookupKind at h ⊢
  by_cases hp : p = []
  · rw [if_pos hp] at h
    exact absurd h (by simp)
  · rw [if_neg hp] at h ⊢
    exact findKind_append_none _ _ _ h

theorem insertDirs_spec : ∀ (ps : List SysPath) (es : List (SysPath × Kind)),
    ∃ extra, insertDirs es ps = es ++ extra
      ∧ ∀ en ∈ extra, en.2 = Kind.dir ∧ en.1 ∈ ps ∧ lookupKind es en.1 = none := by
  intro ps
  induction ps with
  | nil =>
    intro es
    exact ⟨[], by simp [insertDirs], by simp⟩
  | cons p ps ih =>
    intro es
    have hstep : insertDirs es (p :: ps) =
        insertDirs (if (lookupKind es p).isSome then es else es ++ [(p, Kind.dir)]) ps := rfl
    by_cases hl : (lookupKind es p).isSome
    · rw [hstep, if_pos hl]
      obtain ⟨extra, he, hcond⟩ := ih es
      exact ⟨extra, he, fun en hen =>
        ⟨(hcond en hen).1, List.mem_cons_of_mem _ (hcond en hen).2.1, (hcond en hen).2.2⟩⟩
    · rw [hstep, if_neg hl]
      obtain ⟨extra, he, hcond⟩ := ih (es ++ [(p, Kind.dir)])
      refine ⟨(p, Kind.dir) :: extra, ?_, ?_⟩
      · rw [he, List.append_assoc]
        rfl
      · intro en hen
        rcases List.mem_cons.mp hen with he1 | he2
        · subst he1
          exact ⟨rfl, List.mem_cons_self _ _, Option.not_isSome_iff_eq_none.mp hl⟩
        · obtain ⟨ha, hb, hcn⟩ := hcond en he2
          exact ⟨ha, List.mem_cons_of_mem _ hb, lookupKind_append_none _ _ _ hcn⟩

theorem mem_properPrefixes_isPrefix : ∀ (p q : SysPath), q ∈ properPrefixes p → q <+: p := by
  intro p
  induction p with
  | nil =>
    intro q h
    simp [properPrefixes] at h
  | cons s rest ih =>
    intro q h
    unfold properPrefixes at h
    rcases List.mem_cons.mp h with h1 | h2
    · subst h1
      exact List.nil_prefix
    · obtain ⟨q', hq', rfl⟩ := List.mem_map.mp h2
      obtain ⟨t, ht⟩ := ih q' hq'
      exact ⟨t, by rw [List.cons_append, ht]⟩

theorem osMkdirAll_error_state {st st1 : Sys} {s : String} {e : Err}
    (h : osMkdirAll st s = (st1, some e)) : st1 = st := by
  simp only [osMkdirAll] at h
  split at h
  · injection h with h1 h2
    exact h1.symm
  · injection h with h1 h2
    exact absurd h2 (by simp)

theorem osMkdirAll_ok_state {st st1 : Sys} {s : String} (h : osMkdirAll st s = (st1, none)) :
    st1.cwd = st.cwd ∧
    st1.entries = insertDirs st.entries (properPrefixes (st.resolve s) ++ [st.resolve s]) := by
  simp only [osMkdirAll] at h
  split at h
  · injection h with h1 h2
    exact absurd h2 (by simp)
  · injection h with h1 h2
    rw [← h1]
    exact ⟨rfl, rfl⟩

theorem osRename_error_state {st st' : Sys} {sFrom sTo : String} {e : Err}
    (h : osRename st sFrom sTo = (st', some e)) : st' = st := by
  simp only [osRename] at h
  repeat' split at h
  all_goals injection h with h1 h2
  all_goals first
    | exact h1.symm
    | exact absurd h2 (by simp)

/-- Claim C3 (amended): whenever `Move` returns an error, every entry that
existed before the call is still present unchanged (in particular the entry
at `from` and anything at `to`); the only possible additions are directories
on the path to `to`'s resolved parent, created by the eager `MkdirAll` that
runs before the failing rename, and each of them was missing beforehand. -/
theorem move_failed_state :
    ∀ (d : DiskFS) (st : Sys) (fromPath toPath : String) (st' : Sys) (e : Err),
      DiskFS.Move d st fromPath toPath = (st', some e) →
      st'.cwd = st.cwd
      ∧ ∃ extra, st'.entries = st.entries ++ extra
          ∧ ∀ en ∈ extra, en.2 = Kind.dir
              ∧ en.1 <+: st.resolve (pathDir (pathJoin d.basePath toPath))
              ∧ lookupKind st.entries en.1 = none := by
  intro d st fromPath toPath st' e hmv
  simp only [DiskFS.Move] at hmv
  cases hstat : osStat st (pathJoin d.basePath fromPath) with
  | error e1 =>
    rw [hstat] at hmv
    injection hmv with h1 h2
    subst h1
    exact ⟨rfl, [], by simp, by simp⟩
  | ok fi =>
    rw [hstat] at hmv
    cases hmk : osMkdirAll st (pathDir (pathJoin d.basePath toPath)) with
    | mk st1 oe =>
      rw [hmk] at hmv
      cases oe with
      | some e1 =>
        have hst1 : st1 = st := osMkdirAll_error_state hmk
        injection hmv with h1 h2
        subst h1
        rw [hst1]
        exact ⟨rfl, [], by simp, by simp⟩
      | none =>
        obtain ⟨hcwd, hentries⟩ := osMkdirAll_ok_state hmk
        have hst' : st' = st1 := osRename_error_state hmv
        subst hst'
        refine ⟨hcwd, ?_⟩
        obtain ⟨extra, he, hcond⟩ :=
          insertDirs_spec (properPrefixes (st.resolve (pathDir (pathJoin d.basePath toPath)))
            ++ [st.resolve (pathDir (pathJoin d.basePath toPath))]) st.entries
        refine ⟨extra, by rw [hentries, he], ?_⟩
        intro en hen
        obtain ⟨h1, h2, h3⟩ := hcond en hen
        refine ⟨h1, ?_, h3⟩
        rcases List.mem_append.mp h2 with hm | hm
        · exact mem_properPrefixes_isPrefix _ _ hm
        · rw [List.mem_singleton.mp hm]

theorem move_failed_state_witness :
    DiskFS.Move (Disk ".") stAtomic "d" "d/sub/x"
      = (⟨[(["d"], Kind.dir), (["d", "sub"], Kind.dir)], []⟩, some Err.einval)
    ∧ ((⟨[(["d"], Kind.dir), (["d", "sub"], Kind.dir)], []⟩ : Sys).cwd = stAtomic.cwd
        ∧ ∃ extra, (⟨[(["d"], Kind.dir), (["d", "sub"], Kind.dir)], []⟩ : Sys).entries
              = stAtomic.entries ++ extra
            ∧ ∀ en ∈ extra, en.2 = Kind.dir
                ∧ en.1 <+: stAtomic.resolve (pathDir (pathJoin (Disk ".").basePath "d/sub/x"))
                ∧ lookupKind stAtomic.entries en.1 = none) :=
  ⟨by decide,
   move_failed_state (Disk ".") stAtomic "d" "d/sub/x"
     ⟨[(["d"], Kind.dir), (["d", "sub"], Kind.dir)], []⟩ Err.einval (by decide)⟩

/-! ## Claim C6: `pathClean` / `pathJoin` composition

The segment-level theory of Go's `path.Clean`: splitting distributes over
`/`-joined concatenation, the clean stack of a rendered stack is the stack
itself, and therefore cleaning a cleaned prefix is the same as cleaning the
raw concatenation. -/

theorem strEmpty_iff (s : String) : s = "" ↔ s.data = [] :=
  ⟨fun h => by rw [h], fun h => strExt (by rw [h])⟩

theorem strAppend_assoc (a b c : String) : (a ++ b) ++ c = a ++ (b ++ c) :=
  strExt (by
    rw [String.data_append, String.data_append, String.data_append, String.data_append,
      List.append_assoc])

theorem strEmpty_append (s : String) : "" ++ s = s :=
  strExt (by rw [String.data_append]; rfl)

theorem strAppend_ne_empty_left (a b : String) (h : ¬ a = "") : ¬ (a ++ b) = "" := by
  intro hh
  have hd : a.data ++ b.data = [] := by
    rw [← String.data_append]
    exact (strEmpty_iff _).mp hh
  exact h ((strEmpty_iff a).mpr (List.append_eq_nil.mp hd).1)

theorem slashSuffix_ne_empty (x : String) : ¬ (x ++ "/") = "" := by
  intro hh
  have hd := (strEmpty_iff _).mp hh
  rw [String.data_append] at hd
  simp at hd

theorem strRooted_append_left (a b : String) (h : ¬ a = "") : strRooted (a ++ b) = strRooted a := by
  unfold strRooted
  rw [String.data_append]
  cases hd : a.data with
  | nil => exact absurd ((strEmpty_iff a).mpr hd) h
  | cons c cs => rfl

theorem splitSegsAux_append : ∀ (l₁ l₂ : List Char) (acc : List Char),
    splitSegsAux (l₁ ++ '/' :: l₂) acc = splitSegsAux l₁ acc ++ splitSegsAux l₂ [] := by
  intro l₁
  induction l₁ with
  | nil =>
    intro l₂ acc
    rfl
  | cons c cs ih =>
    intro l₂ acc
    show splitSegsAux (c :: (cs ++ '/' :: l₂)) acc = _
    by_cases hc : c = '/'
    · subst hc
      simp only [splitSegsAux, if_pos rfl]
      rw [ih l₂ []]
      rfl
    · simp only [splitSegsAux, if_neg hc]
      exact ih l₂ (c :: acc)

theorem splitSegs_slash_append (a b : String) :
    splitSegs ((a ++ "/") ++ b) = splitSegs a ++ splitSegs b := by
  unfold splitSegs
  have hd : ((a ++ "/") ++ b).data = a.data ++ '/' :: b.data := by
    rw [String.data_append, String.data_append, List.append_assoc]
    rfl
  rw [hd, splitSegsAux_append]

theorem mem_splitSegsAux_no_slash : ∀ (l acc : List Char), '/' ∉ acc →
    ∀ s ∈ splitSegsAux l acc, '/' ∉ s.data := by
  intro l
  induction l with
  | nil =>
    intro acc hacc s hs
    simp only [splitSegsAux, List.mem_singleton] at hs
    subst hs
    exact fun hm => hacc (List.mem_reverse.mp hm)
  | cons c cs ih =>
    intro acc hacc s hs
    by_cases hc : c = '/'
    · subst hc
      simp only [splitSegsAux, if_pos rfl] at hs
      rcases List.mem_cons.mp hs with h1 | h2
      · subst h1
        exact fun hm => hacc (List.mem_reverse.mp hm)
      · exact ih [] (by simp) s h2
    · simp only [splitSegsAux, if_neg hc] at hs
      refine ih (c :: acc) ?_ s hs
      intro hm
      rcases List.mem_cons.mp hm with h1 | h2
      · exact hc h1.symm
      · exact hacc h2

theorem splitSegs_no_slash (t : String) : ∀ s ∈ splitSegs t, '/' ∉ s.data :=
  mem_splitSegsAux_no_slash t.data [] (by simp)

theorem splitSegsAux_no_slash_single : ∀ (l acc : List Char), '/' ∉ l →
    splitSegsAux l acc = [⟨acc.reverse ++ l⟩] := by
  intro l
  induction l with
  | nil =>
    intro acc h
    show [(⟨acc.reverse⟩ : String)] = _
    rw [List.append_nil]
  | cons c cs ih =>
    intro c_acc h
    have hc : ¬ c = '/' := fun hh => h (by rw [hh]; exact List.mem_cons_self _ _)
    simp only [splitSegsAux, if_neg hc]
    rw [ih (c :: c_acc) (fun hm => h (List.mem_cons_of_mem _ hm))]
    rw [List.reverse_cons, List.append_assoc]
    rfl

theorem dotsLow_of_all {l : List String} (h : l.all (fun t => t = "..") = true) :
    dotsLow l = true := by
  induction l with
  | nil => rfl
  | cons s rest ih =>
    rw [List.all_cons] at h
    obtain ⟨h1, h2⟩ := Bool.and_eq_true_iff.mp h
    unfold dotsLow
    rw [if_pos (of_decide_eq_true h1)]
    exact h2

theorem dotsLow_tail {s : String} {rest : List String} (h : dotsLow (s :: rest) = true) :
    dotsLow rest = true := by
  unfold dotsLow at h
  by_cases hs : s = ".."
  · rw [if_pos hs] at h
    exact dotsLow_of_all h
  · rw [if_neg hs] at h
    exact h

theorem stackOK_nil (r : Bool) : StackOK r [] :=
  ⟨by simp, rfl, by simp⟩

theorem stackOK_tail {r : Bool} {x : String} {t : List String} (h : StackOK r (x :: t)) :
    StackOK r t := by
  obtain ⟨h1, h2, h3⟩ := h
  exact ⟨fun s hs => h1 s (List.mem_cons_of_mem _ hs), dotsLow_tail h2,
    fun hr s hs => h3 hr s (List.mem_cons_of_mem _ hs)⟩

theorem cleanPush_stackOK {r : Bool} {st : List String} (seg : String)
    (hst : StackOK r st) (hseg : '/' ∉ seg.data) : StackOK r (cleanPush r st seg) := by
  obtain ⟨h1, h2, h3⟩ := hst
  unfold cleanPush
  by_cases he : seg = "" ∨ seg = "."
  · rw [if_pos he]
    exact ⟨h1, h2, h3⟩
  · rw [if_neg he]
    push_neg at he
    by_cases hd : seg = ".."
    · rw [if_pos hd]
      cases st with
      | nil =>
        show StackOK r (if r = true then [] else [".."])
        by_cases hr : r = true
        · rw [if_pos hr]
          exact stackOK_nil r
        · rw [if_neg hr]
          refine ⟨?_, by decide, ?_⟩
          · intro s hs
            rw [List.mem_singleton.mp hs]
            exact ⟨by decide, by decide, by decide⟩
          · intro hrr
            exact absurd hrr hr
      | cons s0 t0 =>
        show StackOK r (if s0 = ".." then seg :: s0 :: t0 else t0)
        by_cases hs0 : s0 = ".."
        · rw [if_pos hs0]
          refine ⟨?_, ?_, ?_⟩
          · intro s hs
            rcases List.mem_cons.mp hs with h | h
            · rw [h, hd]
              exact ⟨by decide, by decide, by decide⟩
            · exact h1 s h
          · show dotsLow (seg :: s0 :: t0) = true
            unfold dotsLow
            rw [if_pos hd, List.all_cons]
            have ht0 : t0.all (fun t => t = "..") = true := by
              unfold dotsLow at h2
              rw [if_pos hs0] at h2
              exact h2
            rw [ht0]
            simp [hs0]
          · intro hrr
            exact absurd hs0 (h3 hrr s0 (List.mem_cons_self _ _))
        · rw [if_neg hs0]
          exact stackOK_tail ⟨h1, h2, h3⟩
    · rw [if_neg hd]
      refine ⟨?_, ?_, ?_⟩
      · intro s hs
        rcases List.mem_cons.mp hs with h | h
        · rw [h]
          exact ⟨he.1, he.2, hseg⟩
        · exact h1 s h
      · show dotsLow (seg :: st) = true
        unfold dotsLow
        rw [if_neg hd]
        exact h2
      · intro hrr s hs
        rcases List.mem_cons.mp hs with h | h
        · rw [h]
          exact hd
        · exact h3 hrr s h

theorem stackOK_foldl {r : Bool} : ∀ (segs st : List String),
    StackOK r st → (∀ s ∈ segs, '/' ∉ s.data) →
    StackOK r (segs.foldl (cleanPush r) st) := by
  intro segs
  induction segs with
  | nil =>
    intro st h _
    exact h
  | cons s segs ih =>
    intro st h hs
    rw [List.foldl_cons]
    exact ih _ (cleanPush_stackOK s h (hs s (List.mem_cons_self _ _)))
      (fun t ht => hs t (List.mem_cons_of_mem _ ht))

theorem stackOK_stackOf (r : Bool) (t : String) : StackOK r (stackOf r (splitSegs t)) :=
  stackOK_foldl _ [] (stackOK_nil r) (splitSegs_no_slash t)

theorem stackOK_replay {r : Bool} : ∀ (st : List String), StackOK r st →
    st.reverse.foldl (cleanPush r) [] = st := by
  intro st
  induction st with
  | nil =>
    intro _
    rfl
  | cons x t ih =>
    intro h
    rw [List.reverse_cons, List.foldl_append, ih (stackOK_tail h)]
    show cleanPush r t x = x :: t
    obtain ⟨h1, h2, h3⟩ := h
    have hx := h1 x (List.mem_cons_self _ _)
    unfold cleanPush
    rw [if_neg (not_or.mpr ⟨hx.1, hx.2.1⟩)]
    by_cases hd : x = ".."
    · rw [if_pos hd]
      cases t with
      | nil =>
        show (if r = true then [] else [".."]) = [x]
        have hr : ¬ r = true := fun hrr => absurd hd (h3 hrr x (List.mem_cons_self _ _))
        rw [if_neg hr, hd]
      | cons y t2 =>
        show (if y = ".." then x :: y :: t2 else t2) = x :: y :: t2
        have hy : y = ".." := by
          rw [hd] at h2
          unfold dotsLow at h2
          rw [if_pos rfl, List.all_cons] at h2
          exact of_decide_eq_true (Bool.and_eq_true_iff.mp h2).1
        rw [if_pos hy]
    · rw [if_neg hd]

theorem splitSegs_single (x : String) (h : '/' ∉ x.data) : splitSegs x = [x] := by
  unfold splitSegs
  rw [splitSegsAux_no_slash_single x.data [] h]
  show [(⟨x.data⟩ : String)] = [x]
  rw [strEta]

theorem splitSegs_joinSegs : ∀ (l : List String), ¬ l = [] →
    (∀ s ∈ l, ¬ s = "" ∧ '/' ∉ s.data) → splitSegs (joinSegs l) = l := by
  intro l
  induction l with
  | nil =>
    intro h _
    exact absurd rfl h
  | cons x t ih =>
    intro _ hel
    cases t with
    | nil =>
      exact splitSegs_single x (hel x (List.mem_cons_self _ _)).2
    | cons y t2 =>
      show splitSegs ((x ++ "/") ++ joinSegs (y :: t2)) = _
      rw [splitSegs_slash_append,
        splitSegs_single x (hel x (List.mem_cons_self _ _)).2,
        ih (by simp) (fun s hs => hel s (List.mem_cons_of_mem _ hs))]
      rfl

theorem stackOf_cons_empty (r : Bool) (l : List String) :
    stackOf r ("" :: l) = stackOf r l := rfl

theorem stackOf_render {r : Bool} (st : List String) (h : StackOK r st) :
    stackOf r (splitSegs (renderStack r st)) = st := by
  have helems : ∀ s ∈ st.reverse, ¬ s = "" ∧ '/' ∉ s.data := by
    intro s hs
    have := h.1 s (List.mem_reverse.mp hs)
    exact ⟨this.1, this.2.2⟩
  by_cases hr : r = true
  · subst hr
    unfold renderStack
    rw [if_pos rfl]
    have hsplit : splitSegs ("/" ++ joinSegs st.reverse)
        = "" :: splitSegs (joinSegs st.reverse) := by
      unfold splitSegs
      rw [String.data_append]
      rfl
    rw [hsplit, stackOf_cons_empty]
    cases hst : st with
    | nil => decide
    | cons x t =>
      rw [hst] at helems h
      rw [splitSegs_joinSegs (x :: t).reverse (by simp) helems]
      exact stackOK_replay (x :: t) h
  · have hrf : r = false := by
      cases r
      · rfl
      · exact absurd rfl hr
    subst hrf
    unfold renderStack
    rw [if_neg Bool.false_ne_true]
    cases hst : st with
    | nil => decide
    | cons x t =>
      rw [hst] at helems h
      rw [if_neg (by simp)]
      rw [splitSegs_joinSegs (x :: t).reverse (by simp) helems]
      exact stackOK_replay (x :: t) h

theorem joinSegs_ne_empty : ∀ (l : List String), ¬ l = [] → (∀ s ∈ l, ¬ s = "") →
    ¬ joinSegs l = "" := by
  intro l
  match l with
  | [] => intro h _; exact absurd rfl h
  | [x] => intro _ hel; exact hel x (List.mem_cons_self _ _)
  | x :: y :: t =>
    intro _ _
    show ¬ (x ++ "/") ++ joinSegs (y :: t) = ""
    exact strAppend_ne_empty_left _ _ (slashSuffix_ne_empty x)

theorem renderStack_ne_empty {r : Bool} {st : List String} (h : StackOK r st) :
    ¬ renderStack r st = "" := by
  unfold renderStack
  by_cases hr : r = true
  · rw [if_pos hr]
    exact strAppend_ne_empty_left _ _ (by decide)
  · rw [if_neg hr]
    by_cases hst : st = []
    · rw [if_pos hst]
      decide
    · rw [if_neg hst]
      exact joinSegs_ne_empty st.reverse (by simp [hst])
        (fun s hs => (h.1 s (List.mem_reverse.mp hs)).1)

theorem pathClean_eq_render (s : String) (h : ¬ s = "") :
    pathClean s = renderStack (strRooted s) (stackOf (strRooted s) (splitSegs s)) := by
  unfold pathClean
  rw [if_neg h]

theorem pathClean_ne_empty (s : String) : ¬ pathClean s = "" := by
  by_cases hs : s = ""
  · rw [hs]
    decide
  · rw [pathClean_eq_render s hs]
    exact renderStack_ne_empty (stackOK_stackOf _ s)

theorem strRooted_false_of_no_slash (x : String) (h : '/' ∉ x.data) :
    strRooted x = false := by
  unfold strRooted
  cases hd : x.data with
  | nil => rfl
  | cons c cs =>
    show decide (c = '/') = false
    exact decide_eq_false (fun hc => h (by rw [hd, hc]; exact List.mem_cons_self _ _))

theorem strRooted_joinSegs_false : ∀ (l : List String), (∀ s ∈ l, ¬ s = "" ∧ '/' ∉ s.data) →
    strRooted (joinSegs l) = false := by
  intro l
  match l with
  | [] => intro _; rfl
  | [x] => intro hel; exact strRooted_false_of_no_slash x (hel x (List.mem_cons_self _ _)).2
  | x :: y :: t =>
    intro hel
    show strRooted ((x ++ "/") ++ joinSegs (y :: t)) = false
    rw [strRooted_append_left _ _ (slashSuffix_ne_empty x),
      strRooted_append_left _ _ (hel x (List.mem_cons_self _ _)).1]
    exact strRooted_false_of_no_slash x (hel x (List.mem_cons_self _ _)).2

theorem strRooted_renderStack {r : Bool} {st : List String} (h : StackOK r st) :
    strRooted (renderStack r st) = r := by
  unfold renderStack
  by_cases hr : r = true
  · rw [if_pos hr, strRooted_append_left _ _ (by decide), hr]
    rfl
  · have hrf : r = false := by
      cases r
      · rfl
      · exact absurd rfl hr
    rw [if_neg hr, hrf]
    by_cases hst : st = []
    · rw [if_pos hst]
      rfl
    · rw [if_neg hst]
      exact strRooted_joinSegs_false st.reverse
        (fun s hs => ⟨(h.1 s (List.mem_reverse.mp hs)).1, (h.1 s (List.mem_reverse.mp hs)).2.2⟩)

theorem strRooted_pathClean (s : String) : strRooted (pathClean s) = strRooted s := by
  by_cases hs : s = ""
  · rw [hs]
    decide
  · rw [pathClean_eq_render s hs]
    exact strRooted_renderStack (stackOK_stackOf _ s)

theorem pathClean_idem (s : String) : pathClean (pathClean s) = pathClean s := by
  by_cases hs : s = ""
  · rw [hs]
    decide
  · rw [pathClean_eq_render (pathClean s) (pathClean_ne_empty s), strRooted_pathClean s]
    rw [show splitSegs (pathClean s)
        = splitSegs (renderStack (strRooted s) (stackOf (strRooted s) (splitSegs s)))
      from by rw [← pathClean_eq_render s hs]]
    rw [stackOf_render _ (stackOK_stackOf (strRooted s) s)]
    exact (pathClean_eq_render s hs).symm

theorem stackOf_append (r : Bool) (l₁ l₂ : List String) :
    stackOf r (l₁ ++ l₂) = l₂.foldl (cleanPush r) (stackOf r l₁) :=
  List.foldl_append _ _ _ _

theorem pathClean_clean_append (s y : String) (hs : ¬ s = "") :
    pathClean ((pathClean s ++ "/") ++ y) = pathClean ((s ++ "/") ++ y) := by
  have hcne := pathClean_ne_empty s
  have h1 : ¬ ((pathClean s ++ "/") ++ y) = "" :=
    strAppend_ne_empty_left _ _ (slashSuffix_ne_empty _)
  have h2 : ¬ ((s ++ "/") ++ y) = "" := strAppend_ne_empty_left _ _ (slashSuffix_ne_empty _)
  rw [pathClean_eq_render _ h1, pathClean_eq_render _ h2]
  have hr1 : strRooted ((pathClean s ++ "/") ++ y) = strRooted s := by
    rw [strRooted_append_left _ _ (slashSuffix_ne_empty _),
      strRooted_append_left _ _ hcne, strRooted_pathClean]
  have hr2 : strRooted ((s ++ "/") ++ y) = strRooted s := by
    rw [strRooted_append_left _ _ (slashSuffix_ne_empty _), strRooted_append_left _ _ hs]
  rw [hr1, hr2]
  congr 1
  rw [splitSegs_slash_append, splitSegs_slash_append, stackOf_append, stackOf_append]
  congr 1
  rw [show splitSegs (pathClean s)
      = splitSegs (renderStack (strRooted s) (stackOf (strRooted s) (splitSegs s)))
    from by rw [← pathClean_eq_render s hs]]
  rw [stackOf_render _ (stackOK_stackOf (strRooted s) s)]

theorem pathClean_trailing (s : String) (hs : ¬ s = "") : pathClean (s ++ "/") = pathClean s := by
  have h1 : ¬ (s ++ "/") = "" := slashSuffix_ne_empty s
  rw [pathClean_eq_render _ h1, pathClean_eq_render _ hs,
    strRooted_append_left _ _ hs]
  congr 1
  have hsp : splitSegs (s ++ "/") = splitSegs s ++ [""] := by
    rw [← strAppend_empty (s ++ "/"), splitSegs_slash_append]
    rfl
  rw [hsp, stackOf_append]
  rfl

theorem splitSegs_slash_cons (y : String) : splitSegs ("/" ++ y) = "" :: splitSegs y := by
  unfold splitSegs
  rw [String.data_append]
  rfl

theorem pathClean_double_slash (s y : String) (hs : ¬ s = "") :
    pathClean ((s ++ "/") ++ ("/" ++ y)) = pathClean ((s ++ "/") ++ y) := by
  have h1 : ¬ ((s ++ "/") ++ ("/" ++ y)) = "" :=
    strAppend_ne_empty_left _ _ (slashSuffix_ne_empty _)
  have h2 : ¬ ((s ++ "/") ++ y) = "" := strAppend_ne_empty_left _ _ (slashSuffix_ne_empty _)
  rw [pathClean_eq_render _ h1, pathClean_eq_render _ h2,
    strRooted_append_left _ _ (slashSuffix_ne_empty s),
    strRooted_append_left _ _ (slashSuffix_ne_empty s)]
  congr 1
  rw [splitSegs_slash_append, splitSegs_slash_append, splitSegs_slash_cons,
    stackOf_append, stackOf_append]
  rfl

theorem pathJoin_ne_empty (b x : String) (h : ¬ (b = "" ∧ x = "")) : ¬ pathJoin b x = "" := by
  unfold pathJoin
  rw [if_neg h]
  by_cases hb : b = ""
  · rw [if_pos hb]
    exact pathClean_ne_empty x
  · rw [if_neg hb]
    by_cases hx : x = ""
    · rw [if_pos hx]
      exact pathClean_ne_empty b
    · rw [if_neg hx]
      exact pathClean_ne_empty _

theorem pathJoin_eq_clean (A y : String) (hA : ¬ A = "") :
    pathJoin A y = pathClean ((A ++ "/") ++ y) := by
  unfold pathJoin
  rw [if_neg (fun hh => hA hh.1), if_neg hA]
  by_cases hy : y = ""
  · rw [if_pos hy, hy, strAppend_empty (A ++ "/")]
    exact (pathClean_trailing A hA).symm
  · rw [if_neg hy]

/-- Claim C6 counterexample: with the facade rooted at the empty string and
an empty first path, `x ++ "/" ++ y` becomes the rooted path `/b`, so the
two sides of the composition law disagree (`"b"` versus `"/b"`). -/
theorem cd_composition_counterexample :
    (((Disk "").ChangeDirectory "").ChangeDirectory "b").WorkingDirectory = "b"
    ∧ ((Disk "").ChangeDirectory ("" ++ "/" ++ "b")).WorkingDirectory = "/b"
    ∧ ¬ ("b" : String) = "/b" :=
  ⟨by decide, by decide, by decide⟩

/-- Claim C6 (amended): `ChangeDirectory` composes whenever the facade's root
and the first path are not both empty —
`fs.ChangeDirectory(x).ChangeDirectory(y).WorkingDirectory()` equals
`fs.ChangeDirectory(x ++ "/" ++ y).WorkingDirectory()` — and it is pure:
it never fails, never validates the resulting path, and the original
facade's root is untouched. -/
theorem cd_composition (b x y : String) (h : ¬ (b = "" ∧ x = "")) :
    (((Disk b).ChangeDirectory x).ChangeDirectory y).WorkingDirectory
      = ((Disk b).ChangeDirectory (x ++ "/" ++ y)).WorkingDirectory
    ∧ ((Disk b).ChangeDirectory x).basePath = pathJoin b x
    ∧ (Disk b).basePath = b := by
  refine ⟨?_, rfl, rfl⟩
  show pathClean (pathJoin (pathJoin b x) y) = pathClean (pathJoin b ((x ++ "/") ++ y))
  have hA : ¬ pathJoin b x = "" := pathJoin_ne_empty b x h
  have hxy : ¬ ((x ++ "/") ++ y) = "" := strAppend_ne_empty_left _ _ (slashSuffix_ne_empty x)
  rw [pathJoin_eq_clean (pathJoin b x) y hA, pathClean_idem]
  by_cases hb : b = ""
  · subst hb
    have hx : ¬ x = "" := fun hh => h ⟨rfl, hh⟩
    have h1 : pathJoin "" x = pathClean x := by
      unfold pathJoin
      rw [if_neg (fun hh => hx hh.2), if_pos rfl]
    have h2 : pathJoin "" ((x ++ "/") ++ y) = pathClean ((x ++ "/") ++ y) := by
      unfold pathJoin
      rw [if_neg (fun hh => hxy hh.2), if_pos rfl]
    rw [h1, h2, pathClean_idem]
    exact pathClean_clean_append x y hx
  · rw [pathJoin_eq_clean b ((x ++ "/") ++ y) hb, pathClean_idem]
    by_cases hx : x = ""
    · subst hx
      have h1 : pathJoin b "" = pathClean b := by
        unfold pathJoin
        rw [if_neg (fun hh => hb hh.1), if_neg hb, if_pos rfl]
      rw [h1, pathClean_clean_append b y hb, strEmpty_append "/", pathClean_double_slash b y hb]
    · rw [pathJoin_eq_clean b x hb,
        pathClean_clean_append ((b ++ "/") ++ x) y
          (strAppend_ne_empty_left _ _ (slashSuffix_ne_empty b)),
        strAppend_assoc (b ++ "/") x "/", strAppend_assoc (b ++ "/") (x ++ "/") y]

theorem cd_composition_witness :
    ¬ (("u" : String) = "" ∧ ("a" : String) = "")
    ∧ ((((Disk "u").ChangeDirectory "a").ChangeDirectory "b").WorkingDirectory
        = ((Disk "u").ChangeDirectory ("a" ++ "/" ++ "b")).WorkingDirectory
      ∧ ((Disk "u").ChangeDirectory "a").basePath = pathJoin "u" "a"
      ∧ (Disk "u").basePath = "u") :=
  ⟨by decide, cd_composition "u" "a" "b" (by decide)⟩
